import Mathlib

/-!
Verification of the work-partitioning and aggregation engine of the
`tokencount` tool (`tokencount.py`), as a shallow embedding in Lean.

The embedding follows the source file function by function:

* `count_tokens_in_text` and `process_chunk` embed the per-row / per-batch
  token counter; Python field values (which may be `None`, strings, numbers,
  booleans) are modelled by the sum type `Value`, and Python truthiness of a
  value (`if row[0]:`) by `Value.truthy`.
* `chunk_size`, `start_row`, `end_row` embed the partition arithmetic of
  `process_directory_chunk` (lines 96-98 of the source).
* `pyRange` and `batchRequests` embed the batch loop
  `for offset in range(start_row, end_row, batch_size)` together with
  `limit = min(batch_size, end_row - offset)` (lines 101-102).
* `resolveSource`, `buildFrags`, `validAlternation` and `evalQuery` embed the
  DuckDB query construction of lines 57-90: the query text is modelled by its
  fragment list (one `Frag.select` per included file, `Frag.unionAll` for each
  appended separator), and DuckDB's parser accepts exactly the nonempty
  alternations ending in a select.
* `process_directory_chunk` embeds the whole worker body, returning the
  accumulated `(tokens, items)` together with the optional diagnostic that the
  `except` clause of lines 113-114 would print.
* `runWorker` / `runAllWorkers` embed the worker loop when individual batch
  reads may fail, for the partition-isolation property.
* `totalTokens`, `totalItems`, `sortByTokensDesc` and `averageTokens` embed
  the aggregation code of `main` (lines 163-185); the Python stable sort
  `chunk_results.sort(key=..., reverse=True)` is embedded as a stable
  insertion sort, which computes the same (unique) stable descending
  reordering.
-/

namespace Tokencount

/-- A field value as returned by the DuckDB scan into a Python row tuple:
`None`, a string, an integer, or a boolean. -/
inductive Value : Type
  | vNone : Value
  | vStr : String → Value
  | vInt : Int → Value
  | vBool : Bool → Value
  deriving DecidableEq, Repr

/-- Python truthiness of a `Value`, as used by `if row[0]:` and by
`if not text` in the source. -/
def Value.truthy : Value → Bool
  | .vNone => false
  | .vStr s => !s.isEmpty
  | .vInt n => n != 0
  | .vBool b => b

/-- Whether a `Value` is a Python `str`, as tested by
`isinstance(text, str)`. -/
def Value.isStr : Value → Bool
  | .vStr _ => true
  | _ => false

/-- The external tokenizer: `encode` maps a string to its token-id
sequence, whose length is the token count. -/
structure Encoding : Type where
  encode : String → List Nat

/-- Embedding of `count_tokens_in_text(text, encoding)`:
`if not text or not isinstance(text, str): return 0` then
`return len(encoding.encode(text))`.  Only a non-empty string reaches
the encoder; every other value yields 0. -/
def count_tokens_in_text (text : Value) (encoding : Encoding) : Nat :=
  if !text.truthy || !text.isStr then 0
  else match text with
    | .vStr s => (encoding.encode s).length
    | _ => 0

/-- Embedding of `process_chunk(chunk_data, field, encoding)`: fold over the
rows, and for each row with `if row[0]:` (Python truthiness) add the token
count of the row and increment the processed-items counter. -/
def process_chunk (chunk_data : List Value) (encoding : Encoding) : Nat × Nat :=
  chunk_data.foldl
    (fun acc row =>
      if row.truthy then
        (acc.1 + count_tokens_in_text row encoding, acc.2 + 1)
      else acc)
    (0, 0)

/-- Embedding of `chunk_size = total_rows // total_chunks` (line 96). -/
def chunk_size (total_rows total_chunks : Nat) : Nat :=
  total_rows / total_chunks

/-- Embedding of `start_row = chunk_index * chunk_size` (line 97). -/
def start_row (chunk_index total_rows total_chunks : Nat) : Nat :=
  chunk_index * chunk_size total_rows total_chunks

/-- Embedding of
`end_row = start_row + chunk_size if chunk_index < total_chunks - 1 else total_rows`
(line 98). -/
def end_row (chunk_index total_rows total_chunks : Nat) : Nat :=
  if chunk_index < total_chunks - 1 then
    start_row chunk_index total_rows total_chunks + chunk_size total_rows total_chunks
  else total_rows

/-- Fuel-driven loop body of Python's `range(cur, stop, step)`: emits `cur`
while `cur < stop`, advancing by `step`.  The fuel argument only bounds the
number of iterations; `pyRange` supplies enough fuel for any `step ≥ 1`. -/
def pyRangeGo (stop step : Nat) : Nat → Nat → List Nat
  | 0, _ => []
  | fuel + 1, cur => if cur < stop then cur :: pyRangeGo stop step fuel (cur + step) else []

/-- Embedding of Python's `range(start, stop, step)` for a positive step. -/
def pyRange (start stop step : Nat) : List Nat :=
  pyRangeGo stop step (stop - start) start

/-- Embedding of the batch loop of lines 101-102: one `(offset, limit)`
request per iteration of `for offset in range(start_row, end_row, batch_size)`
with `limit = min(batch_size, end_row - offset)`. -/
def batchRequests (start_r end_r batch_size : Nat) : List (Nat × Nat) :=
  (pyRange start_r end_r batch_size).map (fun offset => (offset, min batch_size (end_r - offset)))

/-- A data file as the worker sees it: its final (lowercased) extension, the
inner extension of its stem (consulted only for compressed extensions), and
the rows (projected to the requested field) that DuckDB would read from it. -/
structure DFile : Type where
  ext : String
  innerExt : String
  rows : List Value
  deriving DecidableEq, Repr

/-- The three DuckDB reader strategies of lines 61-74. -/
inductive ReadStrategy : Type
  | parquetScan : ReadStrategy
  | readCsv : ReadStrategy
  | readJson : ReadStrategy
  deriving DecidableEq, Repr

/-- Embedding of the extension dispatch of lines 59-80: which reader a file
gets, or `none` for the two `continue` branches (unknown inner extension of a
compressed file, unknown extension). -/
def resolveSource (f : DFile) : Option ReadStrategy :=
  if f.ext = ".parquet" then some .parquetScan
  else if f.ext = ".csv" ∨ f.ext = ".tsv" then some .readCsv
  else if f.ext = ".json" ∨ f.ext = ".jsonl" then some .readJson
  else if f.ext = ".gz" ∨ f.ext = ".bz2" ∨ f.ext = ".zip" ∨ f.ext = ".xz" then
    if f.innerExt = ".json" ∨ f.innerExt = ".jsonl" then some .readJson
    else if f.innerExt = ".csv" ∨ f.innerExt = ".tsv" then some .readCsv
    else none
  else none

/-- A fragment of the generated `all_data_query` text between the outer
parentheses: a parenthesized select over one file, or a `UNION ALL`
separator. -/
inductive Frag : Type
  | select : DFile → Frag
  | unionAll : Frag
  deriving DecidableEq, Repr

/-- Embedding of the query-building loop of lines 57-86: for each file (in
enumeration order) either skip it (`continue`) or append its select, and
append a `UNION ALL` separator whenever `i < len(files) - 1` — the test uses
the position in the FULL file list, not the position among included files. -/
def buildFrags (files : List DFile) : List Frag :=
  files.enum.foldl
    (fun acc p =>
      match resolveSource p.2 with
      | none => acc
      | some _ =>
          acc ++ [Frag.select p.2] ++
            (if p.1 < files.length - 1 then [Frag.unionAll] else []))
    []

/-- The fragment lists accepted by DuckDB's SQL grammar inside
`SELECT * FROM ( ... )`: a nonempty alternation
`select (UNION ALL select)*`.  The empty list (`SELECT * FROM ()`) and any
list with a trailing separator are syntax errors. -/
def validAlternation : List Frag → Bool
  | [] => false
  | [Frag.select _] => true
  | Frag.select _ :: Frag.unionAll :: rest => validAlternation rest
  | _ => false

/-- The rows of the union query: concatenation of the rows of the selected
files, in fragment order. -/
def fragRows : List Frag → List Value
  | [] => []
  | Frag.select f :: rest => f.rows ++ fragRows rest
  | Frag.unionAll :: rest => fragRows rest

/-- Executing the generated union query against DuckDB: a syntactically
invalid query raises (modelled as `Except.error`), a valid one returns the
ordered concatenation of the selected files' rows. -/
def evalQuery (files : List DFile) : Except String (List Value) :=
  let frags := buildFrags files
  if validAlternation frags then Except.ok (fragRows frags)
  else Except.error "Parser Error: syntax error in generated union query"

/-- Embedding of the body of `process_directory_chunk` (lines 33-116).
Returns `(total_tokens, processed_items, diagnostic)` where the diagnostic is
the message the `except` clause would print to stderr (`none` on the clean
paths).  The early returns of lines 53-54 and 92-93 and the caught query
failure all yield zero counts; otherwise the partition `[start_row, end_row)`
is scanned in `batchRequests` order, each batch read as
`LIMIT limit OFFSET offset` against the stable corpus. -/
def process_directory_chunk (chunk_index total_chunks : Nat) (files : List DFile)
    (encoding : Encoding) (batch_size : Nat) : Nat × Nat × Option String :=
  if files.isEmpty then (0, 0, none)
  else
    match evalQuery files with
    | Except.error e => (0, 0, some ("Error processing directory chunk: " ++ e))
    | Except.ok corpus =>
        let total_rows := corpus.length
        if total_rows = 0 then (0, 0, none)
        else
          let sr := start_row chunk_index total_rows total_chunks
          let er := end_row chunk_index total_rows total_chunks
          let acc := (batchRequests sr er batch_size).foldl
            (fun acc p =>
              let r := process_chunk ((corpus.drop p.1).take p.2) encoding
              (acc.1 + r.1, acc.2 + r.2))
            (0, 0)
          (acc.1, acc.2, none)

/-- Worker loop when individual batch reads/tokenizations may fail: the
`try` block accumulates batch results until the first raised exception, which
aborts the loop; the `except` clause records the diagnostic and the function
still returns the counts accumulated so far (lines 101-116). -/
def runBatchesAux (encoding : Encoding) :
    List (Except String (List Value)) → Nat → Nat → Nat × Nat × Option String
  | [], t, i => (t, i, none)
  | Except.ok b :: rest, t, i =>
      runBatchesAux encoding rest (t + (process_chunk b encoding).1)
        (i + (process_chunk b encoding).2)
  | Except.error e :: _, t, i =>
      (t, i, some ("Error processing directory chunk: " ++ e))

/-- A worker over its partition's sequence of batch outcomes, starting from
zero accumulators. -/
def runWorker (encoding : Encoding) (batches : List (Except String (List Value))) :
    Nat × Nat × Option String :=
  runBatchesAux encoding batches 0 0

/-- The coordinator: one independent worker per partition, no shared state
(`ProcessPoolExecutor.map` over the chunk indices). -/
def runAllWorkers (encoding : Encoding)
    (inputs : List (List (Except String (List Value)))) :
    List (Nat × Nat × Option String) :=
  inputs.map (runWorker encoding)

/-- One per-partition result as aggregated by `main`: the partition index
(which determines the label `Chunk i+1/N`), its token count and its
processed-item count. -/
structure WorkerResult : Type where
  index : Nat
  tokens : Nat
  items : Nat
  deriving DecidableEq, Repr

/-- `total_tokens` accumulated by the result loop of lines 167-168. -/
def totalTokens (rs : List WorkerResult) : Nat :=
  (rs.map (fun r => r.tokens)).sum

/-- `total_processed` accumulated by the result loop of lines 167-169. -/
def totalItems (rs : List WorkerResult) : Nat :=
  (rs.map (fun r => r.items)).sum

/-- Stable descending insertion by token count: the new element goes in
front of the first element whose key does not exceed it, so among equal keys
earlier input elements stay earlier. -/
def insertByTokens (x : WorkerResult) : List WorkerResult → List WorkerResult
  | [] => [x]
  | y :: ys => if y.tokens ≤ x.tokens then x :: y :: ys else y :: insertByTokens x ys

/-- Embedding of `chunk_results.sort(key=lambda x: x['tokens'], reverse=True)`
(line 177).  Python's sort is stable and keyed only on the token count; a
stable sort by a fixed key has a unique result, and this stable insertion
sort computes it. -/
def sortByTokensDesc (rs : List WorkerResult) : List WorkerResult :=
  rs.foldr insertByTokens []

/-- The average of lines 182-185: `total_tokens / total_processed` guarded by
`if total_processed > 0`, `none` standing for the unguarded "0.00" branch in
which no division happens. -/
def averageTokens (rs : List WorkerResult) : Option ℚ :=
  if 0 < totalItems rs then
    some ((totalTokens rs : ℚ) / (totalItems rs : ℚ))
  else none

/-- The last partition's lower bound never exceeds the row count:
`(N-1) * (R / N) ≤ R`. -/
lemma last_start_le_total (R N : Nat) : (N - 1) * (R / N) ≤ R :=
  calc (N - 1) * (R / N) ≤ N * (R / N) := Nat.mul_le_mul_right _ (Nat.sub_le N 1)
    _ = R / N * N := Nat.mul_comm _ _
    _ ≤ R := Nat.div_mul_le_self R N

/-- C1: the partition plan of lines 96-98 computes `chunkSize = R div N`;
partition `i` for `i < N-1` spans `[i*chunkSize, (i+1)*chunkSize)` and the
final partition spans `[(N-1)*chunkSize, R)`; the partitions start at 0, are
contiguous, ordered and pairwise disjoint, have nonempty-interval bounds,
cover every row index below `R`, and their sizes sum to exactly `R`. -/
theorem partition_plan_correct (R N : Nat) (hN : 1 ≤ N) :
    chunk_size R N = R / N ∧
    (∀ i, i < N - 1 →
      start_row i R N = i * (R / N) ∧ end_row i R N = (i + 1) * (R / N)) ∧
    start_row (N - 1) R N = (N - 1) * (R / N) ∧
    end_row (N - 1) R N = R ∧
    start_row 0 R N = 0 ∧
    (∀ i, i + 1 < N → end_row i R N = start_row (i + 1) R N) ∧
    (∀ i, i < N → start_row i R N ≤ end_row i R N) ∧
    (∀ i j, i < j → j < N → end_row i R N ≤ start_row j R N) ∧
    (∀ r, r < R → ∃ i, i < N ∧ start_row i R N ≤ r ∧ r < end_row i R N) ∧
    (Finset.range N).sum (fun i => end_row i R N - start_row i R N) = R := by
  have hend : ∀ i, i < N - 1 → end_row i R N = (i + 1) * (R / N) := by
    intro i hi
    simp only [end_row, if_pos hi, start_row, chunk_size]
    ring
  have hendlast : end_row (N - 1) R N = R := by
    simp [end_row]
  refine ⟨rfl, fun i hi => ⟨rfl, hend i hi⟩, rfl, hendlast, by simp [start_row], ?_, ?_, ?_, ?_, ?_⟩
  · -- contiguity
    intro i hi
    rw [hend i (by omega)]
    rfl
  · -- startRow ≤ endRow
    intro i hi
    by_cases h : i < N - 1
    · rw [hend i h, start_row, chunk_size]
      exact Nat.mul_le_mul_right _ (Nat.le_succ i)
    · have hieq : i = N - 1 := by omega
      subst hieq
      rw [hendlast]
      exact last_start_le_total R N
  · -- pairwise disjoint (ordered by index)
    intro i j hij hj
    have hi : i < N - 1 := by omega
    rw [hend i hi]
    exact Nat.mul_le_mul_right _ (by omega)
  · -- union covers [0, R)
    intro r hr
    by_cases hc : R / N = 0
    · refine ⟨N - 1, by omega, ?_, by rw [hendlast]; exact hr⟩
      rw [start_row, chunk_size, hc, Nat.mul_zero]
      exact Nat.zero_le r
    · have hcpos : 0 < R / N := Nat.pos_of_ne_zero hc
      by_cases hk : r / (R / N) < N - 1
      · refine ⟨r / (R / N), by omega, ?_, ?_⟩
        · exact Nat.div_mul_le_self r (R / N)
        · rw [hend _ hk]
          exact (Nat.div_lt_iff_lt_mul hcpos).mp (Nat.lt_succ_self _)
      · refine ⟨N - 1, by omega, ?_, by rw [hendlast]; exact hr⟩
        calc start_row (N - 1) R N = (N - 1) * (R / N) := rfl
          _ ≤ r / (R / N) * (R / N) := Nat.mul_le_mul_right _ (by omega)
          _ ≤ r := Nat.div_mul_le_self r (R / N)
  · -- partition sizes sum to R
    obtain ⟨M, rfl⟩ : ∃ M, N = M + 1 := ⟨N - 1, by omega⟩
    rw [Finset.sum_range_succ]
    have hsz : ∀ i ∈ Finset.range M, end_row i R (M + 1) - start_row i R (M + 1) = R / (M + 1) := by
      intro i hi
      rw [hend i (by simpa using hi), start_row, chunk_size, Nat.succ_mul]
      exact Nat.add_sub_cancel_left _ _
    rw [Finset.sum_congr rfl hsz, Finset.sum_const, Finset.card_range, smul_eq_mul]
    have h1 : end_row M R (M + 1) = R := by simp [end_row]
    have h2 : start_row M R (M + 1) = M * (R / (M + 1)) := rfl
    have h3 : M * (R / (M + 1)) ≤ R := by
      have := last_start_le_total R (M + 1)
      simpa using this
    rw [h1, h2]
    omega

/-- Closed instance of `partition_plan_correct` at scenario D of the spec:
`workers = 3`, `totalRows = 10` gives partitions `[0,3)`, `[3,6)`, `[6,10)`. -/
theorem partition_plan_correct_witness :
    start_row 0 10 3 = 0 ∧ end_row 0 10 3 = 3 ∧
    start_row 1 10 3 = 3 ∧ end_row 1 10 3 = 6 ∧
    start_row 2 10 3 = 6 ∧ end_row 2 10 3 = 10 := by
  have t := partition_plan_correct 10 3 (by decide)
  exact ⟨(t.2.1 0 (by decide)).1, (t.2.1 0 (by decide)).2,
    (t.2.1 1 (by decide)).1, (t.2.1 1 (by decide)).2,
    t.2.2.1, t.2.2.2.1⟩

/-- C9: when `N > R`, the integer-division chunk size is 0, the first `N-1`
partitions are empty (`startRow = endRow = 0`) and the final partition spans
`[0, R)`, containing every row. -/
theorem small_corpus_partitions (R N : Nat) (h : R < N) :
    chunk_size R N = 0 ∧
    (∀ i, i < N - 1 → start_row i R N = 0 ∧ end_row i R N = 0) ∧
    start_row (N - 1) R N = 0 ∧
    end_row (N - 1) R N = R := by
  have hc : chunk_size R N = 0 := Nat.div_eq_of_lt h
  have hs : ∀ i, start_row i R N = 0 := by
    intro i
    rw [start_row, hc, Nat.mul_zero]
  refine ⟨hc, fun i hi => ⟨hs i, ?_⟩, hs (N - 1), by simp [end_row]⟩
  rw [end_row, if_pos hi, hs i, hc]

/-- Closed instance of `small_corpus_partitions` at `R = 3`, `N = 5`. -/
theorem small_corpus_partitions_witness :
    chunk_size 3 5 = 0 ∧ start_row 0 3 5 = 0 ∧ end_row 0 3 5 = 0 ∧
    start_row 4 3 5 = 0 ∧ end_row 4 3 5 = 3 := by
  have t := small_corpus_partitions 3 5 (by decide)
  exact ⟨t.1, (t.2.1 0 (by decide)).1, (t.2.1 0 (by decide)).2, t.2.2.1, t.2.2.2⟩

/-- A concrete tokenizer for evaluation: every string encodes to one token. -/
def constEncoding : Encoding := ⟨fun _ => [0]⟩

/-- A value that is not truthy contributes zero tokens. -/
lemma count_tokens_zero_of_not_truthy (x : Value) (e : Encoding) (hx : x.truthy = false) :
    count_tokens_in_text x e = 0 := by
  simp [count_tokens_in_text, hx]

/-- Accumulator-generalized form of the `process_chunk` loop: the fold adds
the per-row token counts and counts the truthy rows. -/
lemma process_chunk_foldl (e : Encoding) (b : List Value) (t i : Nat) :
    b.foldl
        (fun acc row =>
          if row.truthy then (acc.1 + count_tokens_in_text row e, acc.2 + 1) else acc)
        (t, i) =
      (t + (b.map (fun v => count_tokens_in_text v e)).sum, i + b.countP Value.truthy) := by
  induction b generalizing t i with
  | nil => simp
  | cons x xs ih =>
    cases hx : x.truthy with
    | true =>
        simp only [List.foldl_cons, hx, if_true, ih, List.map_cons, List.sum_cons,
          List.countP_cons, hx, Prod.mk.injEq]
        omega
    | false =>
        simp [List.foldl_cons, hx, ih, List.countP_cons,
          count_tokens_zero_of_not_truthy x e hx]

/-- `process_chunk` computed in closed form: the token total is the sum of
the per-row counts, and the item count is the number of truthy rows. -/
lemma process_chunk_eq (b : List Value) (e : Encoding) :
    process_chunk b e =
      ((b.map (fun v => count_tokens_in_text v e)).sum, b.countP Value.truthy) := by
  rw [process_chunk, process_chunk_foldl]
  simp

/-- C2 counterexample: a batch whose single row holds the integer 1 — a
truthy non-string value — is counted in `processed_items` (the code tests
Python truthiness, not string-ness), although the batch contains no
non-empty-string row. -/
theorem token_counter_counterexample :
    (process_chunk [Value.vInt 1] constEncoding).2 = 1 ∧
    List.countP (fun v => Value.isStr v && Value.truthy v) [Value.vInt 1] = 0 := by
  decide

/-- C2 amended: per batch, tokenCount is the sum over rows of
`count_tokens_in_text`, which is the tokenizer's encoding length exactly on
non-empty strings and zero on null, empty-string and non-text values; and
itemsProcessed counts exactly the truthy rows (non-empty strings AND truthy
non-text values such as nonzero numbers), so a truthy non-text row
contributes zero tokens but IS counted in itemsProcessed. -/
theorem token_counter_amended (b : List Value) (e : Encoding) :
    process_chunk b e =
      ((b.map (fun v => count_tokens_in_text v e)).sum, b.countP Value.truthy) ∧
    (∀ s, count_tokens_in_text (Value.vStr s) e =
      if s.isEmpty then 0 else (e.encode s).length) ∧
    (∀ n, count_tokens_in_text (Value.vInt n) e = 0) ∧
    (∀ bv, count_tokens_in_text (Value.vBool bv) e = 0) ∧
    count_tokens_in_text Value.vNone e = 0 := by
  refine ⟨process_chunk_eq b e, ?_, ?_, ?_, ?_⟩
  · intro s
    cases hs : s.isEmpty <;> simp [count_tokens_in_text, Value.truthy, Value.isStr, hs]
  · intro n
    simp [count_tokens_in_text, Value.isStr]
  · intro bv
    simp [count_tokens_in_text, Value.isStr]
  · simp [count_tokens_in_text, Value.truthy]

/-- C10: per batch, itemsProcessed never exceeds the number of rows, and
both accumulators are non-negative (they live in ℕ, mirroring that Python's
`len` is non-negative). -/
theorem process_chunk_bounds (b : List Value) (e : Encoding) :
    (process_chunk b e).2 ≤ b.length ∧ 0 ≤ (process_chunk b e).1 := by
  rw [process_chunk_eq]
  exact ⟨List.countP_le_length _, Nat.zero_le _⟩

/-- Every element emitted by the range loop lies in `[cur, stop)`. -/
lemma pyRangeGo_mem (stop step : Nat) :
    ∀ fuel cur, ∀ x ∈ pyRangeGo stop step fuel cur, cur ≤ x ∧ x < stop := by
  intro fuel
  induction fuel with
  | zero => intro cur x hx; simp [pyRangeGo] at hx
  | succ fuel ih =>
    intro cur x hx
    rw [pyRangeGo] at hx
    by_cases h : cur < stop
    · rw [if_pos h] at hx
      rcases List.mem_cons.mp hx with rfl | hx'
      · exact ⟨Nat.le_refl _, h⟩
      · have h2 := ih (cur + step) x hx'
        exact ⟨by omega, h2.2⟩
    · rw [if_neg h] at hx
      simp at hx

/-- Successive elements of the range loop are `step` apart. -/
lemma pyRangeGo_pairwise (stop step : Nat) :
    ∀ fuel cur, List.Pairwise (fun a b => a + step ≤ b) (pyRangeGo stop step fuel cur) := by
  intro fuel
  induction fuel with
  | zero => intro cur; simp [pyRangeGo]
  | succ fuel ih =>
    intro cur
    rw [pyRangeGo]
    by_cases h : cur < stop
    · rw [if_pos h]
      refine List.Pairwise.cons ?_ (ih (cur + step))
      intro y hy
      have h2 := pyRangeGo_mem stop step fuel (cur + step) y hy
      omega
    · rw [if_neg h]
      exact List.Pairwise.nil

/-- The fuel argument of the range loop is irrelevant once it reaches
`stop - cur`: any two sufficient fuels give the same list. -/
lemma pyRangeGo_fuel_irrel (stop step : Nat) (hstep : 1 ≤ step) :
    ∀ fuel fuel2 cur, stop - cur ≤ fuel → stop - cur ≤ fuel2 →
      pyRangeGo stop step fuel cur = pyRangeGo stop step fuel2 cur := by
  intro fuel
  induction fuel with
  | zero =>
    intro fuel2 cur h1 h2
    cases fuel2 with
    | zero => rfl
    | succ f =>
      show ([] : List Nat) = pyRangeGo stop step (f + 1) cur
      rw [pyRangeGo, if_neg (by omega)]
  | succ fuel ih =>
    intro fuel2 cur h1 h2
    cases fuel2 with
    | zero =>
      show pyRangeGo stop step (fuel + 1) cur = ([] : List Nat)
      rw [pyRangeGo, if_neg (by omega)]
    | succ f =>
      rw [pyRangeGo, pyRangeGo]
      by_cases h : cur < stop
      · rw [if_pos h, if_pos h, ih f (cur + step) (by omega) (by omega)]
      · rw [if_neg h, if_neg h]

/-- Adequacy of the fuel encoding: for a positive step, `pyRange` satisfies
exactly the unfolding equation of Python's
`for offset in range(start, stop, step)` loop. -/
lemma pyRange_eq (start stop step : Nat) (hstep : 1 ≤ step) :
    pyRange start stop step =
      if start < stop then start :: pyRange (start + step) stop step else [] := by
  rw [pyRange, pyRange]
  by_cases h : start < stop
  · rw [if_pos h]
    have h1 : stop - start = (stop - start - 1) + 1 := by omega
    rw [h1, pyRangeGo, if_pos h]
    congr 1
    exact pyRangeGo_fuel_irrel stop step hstep _ _ _ (by omega) (by omega)
  · rw [if_neg h]
    have h1 : stop - start = 0 := by omega
    rw [h1]
    rfl

/-- With enough fuel and a positive step, every point of `[cur, stop)` falls
in the step-window of some emitted element. -/
lemma pyRangeGo_cover (stop step : Nat) (hstep : 1 ≤ step) :
    ∀ fuel cur, stop - cur ≤ fuel → ∀ r, cur ≤ r → r < stop →
      ∃ x ∈ pyRangeGo stop step fuel cur, x ≤ r ∧ r < x + step := by
  intro fuel
  induction fuel with
  | zero => intro cur hfuel r hr1 hr2; omega
  | succ fuel ih =>
    intro cur hfuel r hr1 hr2
    have h : cur < stop := by omega
    rw [pyRangeGo, if_pos h]
    by_cases hr : r < cur + step
    · exact ⟨cur, List.mem_cons_self _ _, hr1, hr⟩
    · obtain ⟨x, hx, hx1, hx2⟩ := ih (cur + step) (by omega) r (by omega) hr2
      exact ⟨x, List.mem_cons_of_mem _ hx, hx1, hx2⟩

/-- C5: for a partition `[s, e)` and `batchSize ≥ 1`, the requested
`(offset, limit)` ranges stay inside the partition with `1 ≤ limit ≤
batchSize`, are pairwise disjoint and issued in strictly increasing offset
order, and together cover every row of `[s, e)`. -/
theorem batch_scanner_correct (s e bs : Nat) (hbs : 1 ≤ bs) :
    (∀ p ∈ batchRequests s e bs, s ≤ p.1 ∧ p.1 + p.2 ≤ e ∧ 1 ≤ p.2 ∧ p.2 ≤ bs) ∧
    List.Pairwise (fun p q : Nat × Nat => p.1 + p.2 ≤ q.1) (batchRequests s e bs) ∧
    List.Pairwise (fun p q : Nat × Nat => p.1 < q.1) (batchRequests s e bs) ∧
    (∀ r, s ≤ r → r < e → ∃ p ∈ batchRequests s e bs, p.1 ≤ r ∧ r < p.1 + p.2) := by
  refine ⟨?_, ?_, ?_, ?_⟩
  · intro p hp
    rw [batchRequests, List.mem_map] at hp
    obtain ⟨off, hoff, rfl⟩ := hp
    have h := pyRangeGo_mem e bs _ _ off hoff
    refine ⟨h.1, ?_, ?_, ?_⟩ <;> simp <;> omega
  · rw [batchRequests, List.pairwise_map]
    refine (pyRangeGo_pairwise e bs _ _).imp ?_
    intro a b hab
    simp
    omega
  · rw [batchRequests, List.pairwise_map]
    refine (pyRangeGo_pairwise e bs _ _).imp ?_
    intro a b hab
    omega
  · intro r hr1 hr2
    obtain ⟨x, hx, hx1, hx2⟩ :=
      pyRangeGo_cover e bs hbs (e - s) s (Nat.le_refl _) r hr1 hr2
    refine ⟨(x, min bs (e - x)), ?_, hx1, ?_⟩
    · rw [batchRequests, List.mem_map]
      exact ⟨x, hx, rfl⟩
    · simp
      omega

/-- Closed instance of `batch_scanner_correct` for partition `[3, 10)` with
batch size 3: the request `(3, 3)` stays in bounds, and the request list
`[(3,3), (6,3), (9,1)]` is pairwise disjoint. -/
theorem batch_scanner_correct_witness :
    ((3 : Nat) ≤ 3 ∧ 3 + 3 ≤ 10 ∧ 1 ≤ 3 ∧ 3 ≤ 3) ∧
    List.Pairwise (fun p q : Nat × Nat => p.1 + p.2 ≤ q.1) (batchRequests 3 10 3) :=
  ⟨(batch_scanner_correct 3 10 3 (by decide)).1 (3, 3) (by decide),
   (batch_scanner_correct 3 10 3 (by decide)).2.1⟩

/-- The presentation order of the report: token count descending, ties
broken by original partition index ascending. -/
def tokensThenIndex (a b : WorkerResult) : Prop :=
  b.tokens < a.tokens ∨ (a.tokens = b.tokens ∧ a.index < b.index)

instance : DecidableRel tokensThenIndex := fun a b => by
  unfold tokensThenIndex
  infer_instance

/-- Inserting permutes: the result holds the new element and the old ones. -/
lemma insertByTokens_perm (x : WorkerResult) (l : List WorkerResult) :
    List.Perm (insertByTokens x l) (x :: l) := by
  induction l with
  | nil => exact List.Perm.refl _
  | cons y ys ih =>
    rw [insertByTokens]
    by_cases h : y.tokens ≤ x.tokens
    · rw [if_pos h]
    · rw [if_neg h]
      exact List.Perm.trans (List.Perm.cons y ih) (List.Perm.swap x y ys)

/-- The sort is a permutation of its input. -/
lemma sortByTokensDesc_perm (l : List WorkerResult) :
    List.Perm (sortByTokensDesc l) l := by
  induction l with
  | nil => exact List.Perm.refl _
  | cons x xs ih =>
    exact List.Perm.trans (insertByTokens_perm x (sortByTokensDesc xs)) (List.Perm.cons x ih)

/-- Stable insertion into a lexicographically sorted list keeps it sorted,
provided the inserted element's index is below every present index (it was
the earliest remaining input element). -/
lemma insertByTokens_pairwise (x : WorkerResult) (l : List WorkerResult)
    (hl : List.Pairwise tokensThenIndex l) (hx : ∀ y ∈ l, x.index < y.index) :
    List.Pairwise tokensThenIndex (insertByTokens x l) := by
  induction l with
  | nil => simp [insertByTokens]
  | cons y ys ih =>
    rw [insertByTokens]
    rcases List.pairwise_cons.mp hl with ⟨hy, hys⟩
    by_cases h : y.tokens ≤ x.tokens
    · rw [if_pos h]
      refine List.Pairwise.cons ?_ hl
      intro z hz
      rcases List.mem_cons.mp hz with rfl | hz'
      · by_cases heq : x.tokens = z.tokens
        · exact Or.inr ⟨heq, hx z (List.mem_cons_self _ _)⟩
        · exact Or.inl (by omega)
      · have hyz := hy z hz'
        unfold tokensThenIndex at hyz ⊢
        rcases hyz with h1 | ⟨h1, h2⟩
        · exact Or.inl (by omega)
        · by_cases heq : x.tokens = z.tokens
          · exact Or.inr ⟨heq, hx z (List.mem_cons_of_mem _ hz')⟩
          · exact Or.inl (by omega)
    · rw [if_neg h]
      refine List.Pairwise.cons ?_ (ih hys (fun z hz => hx z (List.mem_cons_of_mem _ hz)))
      intro z hz
      have hz2 := (insertByTokens_perm x ys).mem_iff.mp hz
      rcases List.mem_cons.mp hz2 with rfl | hz'
      · exact Or.inl (by omega)
      · exact hy z hz'

/-- Sorting a list whose indices ascend (the order `executor.map` delivers
results in) yields the tokens-descending, index-ascending presentation. -/
lemma sortByTokensDesc_pairwise (l : List WorkerResult)
    (hidx : List.Pairwise (fun a b => a.index < b.index) l) :
    List.Pairwise tokensThenIndex (sortByTokensDesc l) := by
  induction l with
  | nil => simp [sortByTokensDesc]
  | cons x xs ih =>
    rcases List.pairwise_cons.mp hidx with ⟨hx, hxs⟩
    refine insertByTokens_pairwise x (sortByTokensDesc xs) (ih hxs) ?_
    intro y hy
    exact hx y ((sortByTokensDesc_perm xs).mem_iff.mp hy)

/-- C6: permuting the aggregator's input never changes totalTokens,
totalItems or the average; the echoed per-partition results are a
permutation of the input sorted by token count descending with ties broken
by original partition index ascending (the input arrives in index order, as
`executor.map` preserves the submission order of the chunk indices). -/
theorem aggregate_perm_and_sort (rs rs2 : List WorkerResult)
    (hperm : List.Perm rs rs2)
    (hidx : List.Pairwise (fun a b => a.index < b.index) rs) :
    totalTokens rs = totalTokens rs2 ∧
    totalItems rs = totalItems rs2 ∧
    averageTokens rs = averageTokens rs2 ∧
    List.Perm (sortByTokensDesc rs) rs ∧
    List.Pairwise tokensThenIndex (sortByTokensDesc rs) := by
  have ht : totalTokens rs = totalTokens rs2 :=
    List.Perm.sum_eq (hperm.map (fun r => r.tokens))
  have hi : totalItems rs = totalItems rs2 :=
    List.Perm.sum_eq (hperm.map (fun r => r.items))
  refine ⟨ht, hi, ?_, sortByTokensDesc_perm rs, sortByTokensDesc_pairwise rs hidx⟩
  rw [averageTokens, averageTokens, ht, hi]

/-- Closed instance of `aggregate_perm_and_sort` on two tied partitions. -/
theorem aggregate_perm_and_sort_witness :
    totalTokens [⟨0, 3, 1⟩, ⟨1, 3, 2⟩] = totalTokens [⟨1, 3, 2⟩, ⟨0, 3, 1⟩] ∧
    totalItems [⟨0, 3, 1⟩, ⟨1, 3, 2⟩] = totalItems [⟨1, 3, 2⟩, ⟨0, 3, 1⟩] ∧
    averageTokens [⟨0, 3, 1⟩, ⟨1, 3, 2⟩] = averageTokens [⟨1, 3, 2⟩, ⟨0, 3, 1⟩] ∧
    List.Perm (sortByTokensDesc [⟨0, 3, 1⟩, ⟨1, 3, 2⟩]) [⟨0, 3, 1⟩, ⟨1, 3, 2⟩] ∧
    List.Pairwise tokensThenIndex (sortByTokensDesc [⟨0, 3, 1⟩, ⟨1, 3, 2⟩]) :=
  aggregate_perm_and_sort [⟨0, 3, 1⟩, ⟨1, 3, 2⟩] [⟨1, 3, 2⟩, ⟨0, 3, 1⟩]
    (by decide) (by decide)

/-- C7: the average is `totalTokens / totalItems` exactly when
`totalItems > 0` (and then it is a genuine quotient: multiplying back by
`totalItems` recovers `totalTokens`); when `totalItems = 0` the guarded
branch reports no average and no division is performed. -/
theorem average_guarded (rs : List WorkerResult) :
    (0 < totalItems rs →
      averageTokens rs = some ((totalTokens rs : ℚ) / (totalItems rs : ℚ)) ∧
      ((totalTokens rs : ℚ) / (totalItems rs : ℚ)) * (totalItems rs : ℚ) =
        (totalTokens rs : ℚ)) ∧
    (totalItems rs = 0 → averageTokens rs = none) := by
  constructor
  · intro h
    refine ⟨by rw [averageTokens, if_pos h], ?_⟩
    have hne : ((totalItems rs : ℚ)) ≠ 0 := Nat.cast_ne_zero.mpr (by omega)
    exact div_mul_cancel₀ _ hne
  · intro h
    rw [averageTokens, h]
    simp

/-- Closed instance of `average_guarded`: one partition with 5 tokens over
2 items has the quotient average; an all-zero run reports no average. -/
theorem average_guarded_witness :
    averageTokens [⟨0, 5, 2⟩] =
      some ((totalTokens [⟨0, 5, 2⟩] : ℚ) / (totalItems [⟨0, 5, 2⟩] : ℚ)) ∧
    averageTokens [⟨1, 0, 0⟩] = none :=
  ⟨((average_guarded [⟨0, 5, 2⟩]).1 (by decide)).1,
   (average_guarded [⟨1, 0, 0⟩]).2 (by decide)⟩

/-- Processing a prefix of successful batches only adds their counts to the
accumulators. -/
lemma runBatchesAux_append_ok (e : Encoding) :
    ∀ (oks : List (List Value)) (l : List (Except String (List Value))) (t i : Nat),
      runBatchesAux e (oks.map Except.ok ++ l) t i =
        runBatchesAux e l (t + (oks.map (fun b => (process_chunk b e).1)).sum)
          (i + (oks.map (fun b => (process_chunk b e).2)).sum) := by
  intro oks
  induction oks with
  | nil => intro l t i; simp
  | cons b bs ih =>
    intro l t i
    simp only [List.map_cons, List.cons_append, runBatchesAux, List.sum_cons, List.append_eq]
    rw [ih, Nat.add_assoc, Nat.add_assoc]

/-- C8: a batch failure inside a partition is caught in that partition's
worker, which still returns the counts accumulated over the batches before
the failure together with the diagnostic the `except` clause prints; and
workers are an independent map over per-partition inputs, so partition `j`'s
result is unchanged by whatever (including failures) happens in the inputs
of other partitions. -/
theorem partition_failure_isolated (e : Encoding) (oks : List (List Value)) (msg : String)
    (rest : List (Except String (List Value)))
    (inputs inputs2 : List (List (Except String (List Value)))) (j : Nat)
    (hj : inputs[j]? = inputs2[j]?) :
    runWorker e (oks.map Except.ok ++ Except.error msg :: rest) =
      ((oks.map (fun b => (process_chunk b e).1)).sum,
       (oks.map (fun b => (process_chunk b e).2)).sum,
       some ("Error processing directory chunk: " ++ msg)) ∧
    (runAllWorkers e inputs)[j]? = (runAllWorkers e inputs2)[j]? := by
  constructor
  · rw [runWorker, runBatchesAux_append_ok]
    simp [runBatchesAux]
  · rw [runAllWorkers, runAllWorkers, List.getElem?_map, List.getElem?_map, hj]

/-- Closed instance of `partition_failure_isolated`: a worker whose second
batch fails returns the first batch's counts with the diagnostic, and
breaking partition 0 does not change partition 1's result. -/
theorem partition_failure_isolated_witness :
    runWorker constEncoding [Except.ok [Value.vStr "ab"], Except.error "boom"] =
      (1, 1, some ("Error processing directory chunk: " ++ "boom")) ∧
    (runAllWorkers constEncoding [[Except.error "x"], [Except.ok [Value.vInt 1]]])[1]? =
      (runAllWorkers constEncoding [[Except.ok []], [Except.ok [Value.vInt 1]]])[1]? := by
  have t := partition_failure_isolated constEncoding [[Value.vStr "ab"]] "boom" []
    [[Except.error "x"], [Except.ok [Value.vInt 1]]]
    [[Except.ok []], [Except.ok [Value.vInt 1]]] 1 rfl
  exact ⟨t.1, t.2⟩

/-- A supported parquet file holding two truthy rows. -/
def pqFile : DFile := { ext := ".parquet", innerExt := "", rows := [Value.vInt 7, Value.vInt 8] }

/-- An unsupported sidecar file. -/
def txtFile : DFile := { ext := ".txt", innerExt := "", rows := [] }

/-- A supported parquet file with zero rows. -/
def emptyPq : DFile := { ext := ".parquet", innerExt := "", rows := [] }

/-- C3 evaluated at the failing input: the `.txt` file resolves to no reader
(the silent-skip branch), and skipping works when the unsupported file is
not in last position — but with the unsupported file last, the loop has
already appended a `UNION ALL` separator for the supported file (the test
`i < len(files) - 1` counts ALL files), the generated query is left with a
trailing separator, DuckDB rejects it, and the worker returns zero counts
with a diagnostic instead of the counts of the supported file alone. -/
theorem unsupported_skip_code_bug :
    resolveSource txtFile = none ∧
    process_directory_chunk 0 1 [pqFile] constEncoding 1000 = (0, 2, none) ∧
    process_directory_chunk 0 1 [txtFile, pqFile] constEncoding 1000 = (0, 2, none) ∧
    validAlternation (buildFrags [pqFile, txtFile]) = false ∧
    (process_directory_chunk 0 1 [pqFile, txtFile] constEncoding 1000).2.2.isSome = true ∧
    process_directory_chunk 0 1 [pqFile, txtFile] constEncoding 1000 ≠
      process_directory_chunk 0 1 [pqFile] constEncoding 1000 := by
  decide

/-- C4 evaluated: an empty directory and a supported file with zero rows
both yield the clean zero result, but a nonempty directory with zero
supported files generates the query `SELECT * FROM ()`, which DuckDB
rejects, so the worker reports a caught error (with zero counts) instead of
the claimed error-free zero report. -/
theorem empty_corpus_code_bug :
    process_directory_chunk 0 1 ([] : List DFile) constEncoding 1000 = (0, 0, none) ∧
    process_directory_chunk 0 1 [emptyPq] constEncoding 1000 = (0, 0, none) ∧
    buildFrags [txtFile] = [] ∧
    (process_directory_chunk 0 1 [txtFile] constEncoding 1000).1 = 0 ∧
    (process_directory_chunk 0 1 [txtFile] constEncoding 1000).2.1 = 0 ∧
    (process_directory_chunk 0 1 [txtFile] constEncoding 1000).2.2.isSome = true := by
  decide

end Tokencount
